import Mathlib

/-!
# lookback: the ring buffer and the buffering/recording state machine

A shallow embedding of `main.go` (types `Ring` and `State`) and the properties of it
that the specification states.

Conventions of the embedding.

* A Go byte slice is a `Slice`: the `len` visible bytes plus the number of spare cells
  of the backing array behind them, so `cap = len + spare` and `len ≤ cap` holds by
  construction.  The program only ever reslices with `b[low:]`, which never exposes a
  cell beyond `len`, so the hidden cells carry no information.
* A Go call either returns, panics (`Outcome.panicked`) or ends the process through
  `log.Fatal` (`Outcome.fatal`).
* The capacity that `append` gives a reallocated slice is left open by the language
  ("a new, sufficiently large underlying array"); it is the parameter `grow`.
* The operating system is a `World`: the content of the one file the program touches
  (the file named by `State.Path`) and the conditions under which the three system
  calls the program makes fail.
* The mutex of `State` is not modelled: operations are whole, sequential steps.
* Lengths are far below `2^63`, so `len(r.buffer)+len(p)` is computed without wrap-around,
  and `make` succeeds for every capacity that is not negative.
-/

namespace Lookback

/-- One byte of sample data. -/
abbrev Byte := UInt8

/-- How a Go call ends: it returns `val`, it panics at run time, or it terminates the
process with `log.Fatal`. -/
inductive Outcome (α : Type) where
  | ok (val : α)
  | panicked
  | fatal
  deriving DecidableEq

/-- The error values the program can see. -/
inductive Error where
  /-- `errors.New("Cannot write buffer larger than ring.")` -/
  | tooLarge
  /-- `os.ErrInvalid`: a method of `*os.File` called on a nil pointer -/
  | invalid
  /-- `os.ErrClosed`: a method of `*os.File` called after `Close` -/
  | closed
  /-- the sink took fewer bytes than it was given -/
  | noSpace
  /-- the system call behind `Close` reported an error -/
  | closeFailed
  deriving DecidableEq

/-- The pair `(n int, err error)` returned by the `Write` methods. -/
structure WriteResult where
  n : Nat
  err : Option Error
  deriving DecidableEq

/-! ## Go slices -/

/-- A byte slice: its `len` bytes and the spare capacity behind them. -/
structure Slice where
  data : List Byte
  spare : Nat
  deriving DecidableEq

/-- Go `len(b)`. -/
def Slice.len (b : Slice) : Nat := b.data.length

/-- Go `cap(b)`. -/
def Slice.cap (b : Slice) : Nat := b.data.length + b.spare

/-- Go `make([]byte, 0, c)` for `c ≥ 0`. -/
def Slice.make (c : Nat) : Slice := ⟨[], c⟩

/-- Go `b[low:]`, that is `b[low:len(b)]`: a run-time panic (`none`) unless
`low ≤ len(b)`; otherwise both length and capacity shrink by `low`. -/
def Slice.reslice (b : Slice) (low : Nat) : Option Slice :=
  if low ≤ b.len then some ⟨b.data.drop low, b.spare⟩ else none

/-- Go `append(b, p...)`: in place when the spare capacity suffices, otherwise into a
new array whose capacity is what the run time chooses (`grow oldCap needed`), and at
least what is needed. -/
def Slice.append (grow : Nat → Nat → Nat) (b : Slice) (p : List Byte) : Slice :=
  if p.length ≤ b.spare then
    ⟨b.data ++ p, b.spare - p.length⟩
  else
    ⟨b.data ++ p, max (b.len + p.length) (grow b.cap (b.len + p.length)) - (b.len + p.length)⟩

/-- The growth policy of the gc run time for slices of fewer than 256 elements: the
capacity doubles, unless even that is too small.  (The allocator may round the result
up further.)  It is used to evaluate the model on small inputs. -/
def growDouble (oldCap needed : Nat) : Nat :=
  if needed > oldCap + oldCap then needed else oldCap + oldCap

/-! ## Ring -/

/-- Go `type Ring struct { size int; buffer []byte }`.  `size` is never negative in a
ring that exists: `NewRing` panics before building one. -/
structure Ring where
  size : Nat
  buffer : Slice
  deriving DecidableEq

/-- Go `NewRing`.  `make` panics on a negative capacity. -/
def NewRing (size : Int) : Outcome Ring :=
  if size < 0 then Outcome.panicked
  else Outcome.ok { size := size.toNat, buffer := Slice.make size.toNat }

/-- Go `(*Ring).Write`. -/
def Ring.Write (grow : Nat → Nat → Nat) (r : Ring) (p : List Byte) :
    Outcome (Ring × WriteResult) :=
  if p.length = 0 then
    Outcome.ok (r, ⟨0, none⟩)
  else if p.length > r.buffer.cap then
    Outcome.ok (r, ⟨0, some Error.tooLarge⟩)
  else if r.buffer.len + p.length > r.size then
    match r.buffer.reslice p.length with
    | none => Outcome.panicked
    | some b => Outcome.ok ({ r with buffer := b.append grow p }, ⟨p.length, none⟩)
  else
    Outcome.ok ({ r with buffer := r.buffer.append grow p }, ⟨p.length, none⟩)

/-- Go `(*Ring).Dump`: the ring after the call and the slice returned. -/
def Ring.Dump (r : Ring) : Ring × List Byte :=
  ({ r with buffer := Slice.make r.size }, r.buffer.data)

/-- A call on a ring. -/
inductive RingCall where
  | Write (p : List Byte)
  | Dump
  deriving DecidableEq

/-- One call on a ring; the result is the ring after it. -/
def Ring.step (grow : Nat → Nat → Nat) (r : Ring) : RingCall → Outcome Ring
  | RingCall.Write p =>
    match r.Write grow p with
    | Outcome.ok (r1, _) => Outcome.ok r1
    | Outcome.panicked => Outcome.panicked
    | Outcome.fatal => Outcome.fatal
  | RingCall.Dump => Outcome.ok r.Dump.1

/-- A sequence of calls on a ring, stopping at the first that does not return. -/
def Ring.run (grow : Nat → Nat → Nat) (r : Ring) : List RingCall → Outcome Ring
  | [] => Outcome.ok r
  | c :: cs =>
    match r.step grow c with
    | Outcome.ok r1 => Ring.run grow r1 cs
    | Outcome.panicked => Outcome.panicked
    | Outcome.fatal => Outcome.fatal

/-- The rings that `NewRing(C)` followed by `Write` and `Dump` calls can produce. -/
def Ring.Reachable (grow : Nat → Nat → Nat) (C : Int) (r : Ring) : Prop :=
  ∃ r0 calls, NewRing C = Outcome.ok r0 ∧ Ring.run grow r0 calls = Outcome.ok r

/-- A sequence of `Write` calls: the ring after them and what each returned. -/
def Ring.writeAll (grow : Nat → Nat → Nat) (r : Ring) :
    List (List Byte) → Outcome (Ring × List WriteResult)
  | [] => Outcome.ok (r, [])
  | p :: ps =>
    match r.Write grow p with
    | Outcome.ok (r1, res) =>
      match Ring.writeAll grow r1 ps with
      | Outcome.ok (r2, rs) => Outcome.ok (r2, res :: rs)
      | Outcome.panicked => Outcome.panicked
      | Outcome.fatal => Outcome.fatal
    | Outcome.panicked => Outcome.panicked
    | Outcome.fatal => Outcome.fatal

/-- A sequence of calls on a ring together with the bytes accepted since the last
`Dump`: a `Write` that returns a nil error adds its chunk, a `Dump` starts afresh. -/
def Ring.runLog (grow : Nat → Nat → Nat) (r : Ring) (log : List Byte) :
    List RingCall → Outcome (Ring × List Byte)
  | [] => Outcome.ok (r, log)
  | RingCall.Write p :: cs =>
    match r.Write grow p with
    | Outcome.ok (r1, res) =>
      Ring.runLog grow r1 (if res.err = none then log ++ p else log) cs
    | Outcome.panicked => Outcome.panicked
    | Outcome.fatal => Outcome.fatal
  | RingCall.Dump :: cs => Ring.runLog grow r.Dump.1 [] cs

/-! ## The operating system -/

/-- The value of the field `file *os.File`: the nil pointer, or a file object that is
open or has been closed.  `State` is the only owner of the object. -/
inductive File where
  | nil
  | opened
  | closed
  deriving DecidableEq

/-- The part of the operating system the program meets.  `content` is what the file
named by `State.Path` holds (`none`: there is no such file).  The other fields say when
a system call fails: `createFails` makes `os.Create` fail, `quota` bounds the number of
bytes the file may hold (`none`: no bound), `closeFails` makes closing an open file
report an error.  Nothing but the program changes the file.  The steps of the program
leave the three failure fields as they are, but the environment may change them between
two calls: a statement about a call made later takes the world of that moment. -/
structure World where
  content : Option (List Byte)
  createFails : Bool
  quota : Option Nat
  closeFails : Bool
  deriving DecidableEq

/-- Go `os.Create(path)`: the file is created, or truncated when it exists, and a fresh
open handle positioned at offset zero is returned; or the call fails and changes
nothing (`none`). -/
def osCreate (w : World) : World × Option File :=
  if w.createFails then (w, none)
  else ({ w with content := some [] }, some File.opened)

/-- Go `(*os.File).Write`.  On a nil or closed file it returns `(0, err)`.  An open
handle is the only writer of its file and sits at the end of it, so the bytes the
sink accepts are appended; fewer than `len(p)` of them come with an error. -/
def File.Write (f : File) (w : World) (p : List Byte) : World × WriteResult :=
  match f with
  | File.nil => (w, ⟨0, some Error.invalid⟩)
  | File.closed => (w, ⟨0, some Error.closed⟩)
  | File.opened =>
    match w.content with
    | none => (w, ⟨p.length, none⟩)
    | some c =>
      let n := match w.quota with
        | none => p.length
        | some q => min p.length (q - c.length)
      ({ w with content := some (c ++ p.take n) },
        ⟨n, if n < p.length then some Error.noSpace else none⟩)

/-- Go `(*os.File).Close`: the handle afterwards and the error returned.  A nil
receiver and a closed file give an error and no panic; an open file is closed even
when the system call reports an error. -/
def File.Close (f : File) (w : World) : File × Option Error :=
  match f with
  | File.nil => (File.nil, some Error.invalid)
  | File.closed => (File.closed, some Error.closed)
  | File.opened => (File.closed, if w.closeFails then some Error.closeFailed else none)

/-! ## State -/

/-- Go `type State struct`, without the mutex.  `Ring` is a pointer that `NewState`
sets once and nothing reassigns; it is held by value. -/
structure State where
  size : Int
  file : File
  Path : String
  Output : Bool
  Ring : Lookback.Ring
  deriving DecidableEq

/-- Go `NewState`. -/
def NewState (size : Int) (path : String) : Outcome State :=
  match NewRing size with
  | Outcome.ok r =>
    Outcome.ok { size := size, file := File.nil, Path := path, Output := false, Ring := r }
  | Outcome.panicked => Outcome.panicked
  | Outcome.fatal => Outcome.fatal

/-- Go `(*State).Start`.  The result of `s.file.Write` is dropped, as in the source. -/
def State.Start (s : State) (w : World) : Outcome (State × World) :=
  match osCreate w with
  | (_, none) => Outcome.fatal
  | (w1, some file) =>
    let d := s.Ring.Dump
    let w2 := (file.Write w1 d.2).1
    Outcome.ok ({ s with file := file, Ring := d.1, Output := true }, w2)

/-- Go `(*State).Stop`.  The result of `s.file.Close` is dropped, as in the source. -/
def State.Stop (s : State) (w : World) : State × World :=
  ({ s with file := (s.file.Close w).1, Output := false }, w)

/-- Go `(*State).Write`. -/
def State.Write (grow : Nat → Nat → Nat) (s : State) (w : World) (p : List Byte) :
    Outcome (State × World × WriteResult) :=
  if s.Output then
    let r := s.file.Write w p
    Outcome.ok (s, r.1, r.2)
  else
    match s.Ring.Write grow p with
    | Outcome.ok (r1, res) => Outcome.ok ({ s with Ring := r1 }, w, res)
    | Outcome.panicked => Outcome.panicked
    | Outcome.fatal => Outcome.fatal

/-- A call on a `State`. -/
inductive Call where
  | Start
  | Stop
  | Write (p : List Byte)
  deriving DecidableEq

/-- One call on a `State`: the state and the world after it. -/
def State.step (grow : Nat → Nat → Nat) (s : State) (w : World) :
    Call → Outcome (State × World)
  | Call.Start => s.Start w
  | Call.Stop => Outcome.ok (s.Stop w)
  | Call.Write p =>
    match s.Write grow w p with
    | Outcome.ok (s1, w1, _) => Outcome.ok (s1, w1)
    | Outcome.panicked => Outcome.panicked
    | Outcome.fatal => Outcome.fatal

/-- A sequence of calls on a `State`, stopping at the first that does not return. -/
def State.run (grow : Nat → Nat → Nat) (s : State) (w : World) :
    List Call → Outcome (State × World)
  | [] => Outcome.ok (s, w)
  | c :: cs =>
    match s.step grow w c with
    | Outcome.ok (s1, w1) => State.run grow s1 w1 cs
    | Outcome.panicked => Outcome.panicked
    | Outcome.fatal => Outcome.fatal

/-- A sequence of calls on `NewState(C, path)`. -/
def State.exec (grow : Nat → Nat → Nat) (C : Int) (path : String) (w : World)
    (calls : List Call) : Outcome (State × World) :=
  match NewState C path with
  | Outcome.ok s => State.run grow s w calls
  | Outcome.panicked => Outcome.panicked
  | Outcome.fatal => Outcome.fatal

/-- Whether the sink operation of one call succeeds: the write of the drained ring to
the new file in `Start`, the write to the file in `Write` while `Output` is true.
`Stop` writes nothing, and a `Write` while `Output` is false has the ring as its sink. -/
def State.sinkOk (s : State) (w : World) : Call → Bool
  | Call.Start =>
    match osCreate w with
    | (_, none) => false
    | (w1, some file) => decide ((file.Write w1 s.Ring.Dump.2).2.err = none)
  | Call.Stop => true
  | Call.Write p =>
    if s.Output then decide ((s.file.Write w p).2.err = none) else true

/-- Whether the sink operation of every call of a sequence succeeds. -/
def State.sinksOk (grow : Nat → Nat → Nat) (s : State) (w : World) : List Call → Bool
  | [] => true
  | c :: cs =>
    s.sinkOk w c &&
      match s.step grow w c with
      | Outcome.ok (s1, w1) => State.sinksOk grow s1 w1 cs
      | Outcome.panicked => true
      | Outcome.fatal => true

/-- The bytes a sequence of calls without `Start` sends to the file when it begins
with `Output` true: the chunks of the `Write` calls before the first `Stop`. -/
def recorded : List Call → List Byte
  | [] => []
  | Call.Write p :: cs => p ++ recorded cs
  | Call.Stop :: _ => []
  | Call.Start :: _ => []
/-- `NewRing(C)` followed by a sequence of `Write` calls. -/
def Ring.execWrites (grow : Nat → Nat → Nat) (C : Int) (chunks : List (List Byte)) :
    Outcome (Ring × List WriteResult) :=
  match NewRing C with
  | Outcome.ok r => Ring.writeAll grow r chunks
  | Outcome.panicked => Outcome.panicked
  | Outcome.fatal => Outcome.fatal

/-- A world with no file at the path, where creating it succeeds and the file may hold
two bytes. -/
def tightWorld : World :=
  { content := none, createFails := false, quota := some 2, closeFails := false }

/-- Whether the sink operation of every call of a sequence on `NewState(C, path)`
succeeds. -/
def State.execSinksOk (grow : Nat → Nat → Nat) (C : Int) (path : String) (w : World)
    (calls : List Call) : Bool :=
  match NewState C path with
  | Outcome.ok s => State.sinksOk grow s w calls
  | Outcome.panicked => true
  | Outcome.fatal => true

/-- A world whose file holds three old bytes and where no system call fails. -/
def plainWorld : World :=
  { content := some [7, 7, 7], createFails := false, quota := none, closeFails := false }

/-- The state `NewState(10, "out.raw")` reaches by `Write("XYZ")`. -/
def xyzState : State :=
  { size := 10, file := File.nil, Path := "out.raw", Output := false,
    Ring := { size := 10, buffer := ⟨[88, 89, 90], 7⟩ } }

/-- The state `xyzState` reaches by `Start`. -/
def recordingState : State :=
  { size := 10, file := File.opened, Path := "out.raw", Output := true,
    Ring := { size := 10, buffer := ⟨[], 10⟩ } }

/-- The `Write` calls of a sequence, as calls on the ring. -/
def ringWrites : List Call → List RingCall
  | [] => []
  | Call.Write p :: cs => RingCall.Write p :: ringWrites cs
  | Call.Start :: cs => ringWrites cs
  | Call.Stop :: cs => ringWrites cs

/-- The calls of a sequence that follow its first `Stop`. -/
def afterStop : List Call → List Call
  | [] => []
  | Call.Stop :: cs => cs
  | Call.Start :: cs => afterStop cs
  | Call.Write _ :: cs => afterStop cs

/-- A world in which `os.Create` fails. -/
def lockedWorld : World :=
  { content := some [7, 7, 7], createFails := true, quota := none, closeFails := false }

/-- A world in which closing an open file reports an error. -/
def brokenCloseWorld : World :=
  { content := some [88, 89, 90], createFails := false, quota := none, closeFails := true }

/-! ## Lemmas -/

theorem suffix_append_right {a b : List Byte} (p : List Byte) (h : a <:+ b) :
    a ++ p <:+ b ++ p := by
  obtain ⟨t, ht⟩ := h
  exact ⟨t, by rw [← ht, List.append_assoc]⟩

theorem Slice.append_data (grow : Nat → Nat → Nat) (b : Slice) (p : List Byte) :
    (b.append grow p).data = b.data ++ p := by
  unfold Slice.append
  split <;> rfl

theorem Slice.append_cap (grow : Nat → Nat → Nat) (b : Slice) (p : List Byte) :
    b.len + p.length ≤ (b.append grow p).cap := by
  unfold Slice.append Slice.cap Slice.len
  split <;> simp

/-- What a returning `Ring.Write` did: it rejected the chunk and changed nothing, or it
appended the chunk, after dropping `len(p)` bytes from the front when the chunk did
not fit under `size`. -/
theorem Ring.Write_ok (grow : Nat → Nat → Nat) (r r1 : Ring) (p : List Byte)
    (res : WriteResult) (h : r.Write grow p = Outcome.ok (r1, res)) :
    r1.size = r.size ∧
      ((res = ⟨0, some Error.tooLarge⟩ ∧ r1 = r ∧ r.buffer.cap < p.length) ∨
       (res = ⟨p.length, none⟩ ∧ r.buffer.len + p.length ≤ r.size ∧
          r1.buffer.data = r.buffer.data ++ p) ∨
       (res = ⟨p.length, none⟩ ∧ r.size < r.buffer.len + p.length ∧
          p.length ≤ r.buffer.len ∧ r1.buffer.data = r.buffer.data.drop p.length ++ p)) := by
  unfold Ring.Write at h
  split at h
  · rename_i h0
    have hp : p = [] := List.length_eq_zero.mp h0
    injection h with h
    injection h with hr hres
    subst hr hres hp
    refine ⟨rfl, ?_⟩
    by_cases hle : r.buffer.len ≤ r.size
    · right; left; simpa using hle
    · right; right; simp; omega
  · split at h
    · rename_i h1
      injection h with h
      injection h with hr hres
      subst hr hres
      exact ⟨rfl, Or.inl ⟨rfl, rfl, h1⟩⟩
    · split at h
      · rename_i h2
        cases hre : r.buffer.reslice p.length with
        | none => simp [hre] at h
        | some b =>
          simp only [hre] at h
          injection h with h
          injection h with hr hres
          subst hr hres
          unfold Slice.reslice at hre
          split at hre
          · rename_i h3
            injection hre with hb
            subst hb
            refine ⟨rfl, Or.inr (Or.inr ⟨rfl, h2, h3, ?_⟩)⟩
            simp [Slice.append_data]
          · simp at hre
      · rename_i h2
        injection h with h
        injection h with hr hres
        subst hr hres
        refine ⟨rfl, Or.inr (Or.inl ⟨rfl, by omega, ?_⟩)⟩
        simp [Slice.append_data]

/-- The length bound and the suffix property are kept by every returning `Write`. -/
theorem Ring.Write_keeps (grow : Nat → Nat → Nat) (r r1 : Ring) (p log : List Byte)
    (res : WriteResult) (h : r.Write grow p = Outcome.ok (r1, res))
    (hlen : r.buffer.len ≤ r.size) (hsuf : r.buffer.data <:+ log) :
    r1.size = r.size ∧ r1.buffer.len ≤ r1.size ∧
      r1.buffer.data <:+ (if res.err = none then log ++ p else log) := by
  obtain ⟨hsz, hcase⟩ := Ring.Write_ok grow r r1 p res h
  refine ⟨hsz, ?_, ?_⟩
  · rcases hcase with ⟨_, hr, _⟩ | ⟨_, hfit, hd⟩ | ⟨_, _, hk, hd⟩
    · subst hr; exact hlen
    · unfold Slice.len at *
      rw [hsz, hd]; simpa using hfit
    · unfold Slice.len at *
      rw [hsz, hd]; simp; omega
  · rcases hcase with ⟨hres, hr, _⟩ | ⟨hres, _, hd⟩ | ⟨hres, _, _, hd⟩
    · subst hr hres; simpa using hsuf
    · subst hres
      rw [hd]
      simp only [if_true]
      exact suffix_append_right p hsuf
    · subst hres
      rw [hd]
      simp only [if_true]
      exact suffix_append_right p ((List.drop_suffix _ _).trans hsuf)

theorem File.Write_opened_fits (w : World) (c p : List Byte) (hc : w.content = some c)
    (hq : ∀ q, w.quota = some q → c.length + p.length ≤ q) :
    File.opened.Write w p = ({ w with content := some (c ++ p) }, ⟨p.length, none⟩) := by
  unfold File.Write
  simp only [hc]
  cases hquota : w.quota with
  | none => simp
  | some q =>
    have h := hq q hquota
    have hmin : min p.length (q - c.length) = p.length := by omega
    simp [hmin]

theorem File.Write_opened_err_none (w : World) (c p : List Byte) (hc : w.content = some c)
    (h : (File.opened.Write w p).2.err = none) :
    File.opened.Write w p = ({ w with content := some (c ++ p) }, ⟨p.length, none⟩) := by
  unfold File.Write at h ⊢
  simp only [hc] at h ⊢
  cases hquota : w.quota with
  | none => simp
  | some q =>
    simp only [hquota] at h
    have h1 : min p.length (q - c.length) ≤ p.length := Nat.min_le_left _ _
    have hmin : min p.length (q - c.length) = p.length := by
      by_contra hne
      have : min p.length (q - c.length) < p.length := by omega
      simp [this] at h
    simp [hmin]

theorem Ring.Write_after_Dump (grow : Nat → Nat → Nat) (r : Ring) (p : List Byte)
    (hp : p.length ≤ r.size) :
    r.Dump.1.Write grow p
      = Outcome.ok ({ size := r.size, buffer := ⟨p, r.size - p.length⟩ }, ⟨p.length, none⟩) := by
  cases p with
  | nil => simp [Ring.Write, Ring.Dump, Slice.make]
  | cons a t =>
    have h1 : ¬ (t.length + 1 > r.size) := by simpa using hp
    have h2 : t.length + 1 ≤ r.size := by simpa using hp
    simp [Ring.Write, Ring.Dump, Slice.make, Slice.cap, Slice.len, Slice.append, h1, h2]

theorem NewRing_ok (C : Int) (r0 : Ring) (h : NewRing C = Outcome.ok r0) :
    0 ≤ C ∧ r0 = { size := C.toNat, buffer := Slice.make C.toNat } := by
  unfold NewRing at h
  split at h
  · simp at h
  · injection h with h
    exact ⟨by omega, h.symm⟩

theorem Ring.run_keeps (grow : Nat → Nat → Nat) (calls : List RingCall) (r r1 : Ring)
    (hrun : Ring.run grow r calls = Outcome.ok r1) (hlen : r.buffer.len ≤ r.size) :
    r1.size = r.size ∧ r1.buffer.len ≤ r1.size := by
  induction calls generalizing r with
  | nil =>
    simp only [Ring.run] at hrun
    injection hrun with hrun
    subst hrun
    exact ⟨rfl, hlen⟩
  | cons c cs ih =>
    simp only [Ring.run] at hrun
    cases c with
    | Write p =>
      simp only [Ring.step] at hrun
      cases hw : r.Write grow p with
      | ok v =>
        obtain ⟨r2, res⟩ := v
        simp only [hw] at hrun
        have hk := Ring.Write_keeps grow r r2 p r.buffer.data res hw hlen
          (List.suffix_refl _)
        have := ih r2 hrun hk.2.1
        exact ⟨this.1.trans hk.1, this.2⟩
      | panicked => simp [hw] at hrun
      | fatal => simp [hw] at hrun
    | Dump =>
      simp only [Ring.step] at hrun
      have := ih r.Dump.1 hrun (by simp [Ring.Dump, Slice.make, Slice.len])
      exact ⟨this.1, this.2⟩

theorem Ring.runLog_keeps (grow : Nat → Nat → Nat) (calls : List RingCall) (r r1 : Ring)
    (log log1 : List Byte)
    (hrun : Ring.runLog grow r log calls = Outcome.ok (r1, log1))
    (hlen : r.buffer.len ≤ r.size) (hsuf : r.buffer.data <:+ log) :
    r1.size = r.size ∧ r1.buffer.len ≤ r1.size ∧ r1.buffer.data <:+ log1 := by
  induction calls generalizing r log with
  | nil =>
    simp only [Ring.runLog] at hrun
    injection hrun with hrun
    injection hrun with h1 h2
    subst h1 h2
    exact ⟨rfl, hlen, hsuf⟩
  | cons c cs ih =>
    cases c with
    | Write p =>
      simp only [Ring.runLog] at hrun
      cases hw : r.Write grow p with
      | ok v =>
        obtain ⟨r2, res⟩ := v
        simp only [hw] at hrun
        have hk := Ring.Write_keeps grow r r2 p log res hw hlen hsuf
        have := ih r2 _ hrun hk.2.1 hk.2.2
        exact ⟨this.1.trans hk.1, this.2⟩
      | panicked => simp [hw] at hrun
      | fatal => simp [hw] at hrun
    | Dump =>
      simp only [Ring.runLog] at hrun
      have := ih r.Dump.1 [] hrun (by simp [Ring.Dump, Slice.make, Slice.len])
        (by simp [Ring.Dump, Slice.make])
      exact ⟨this.1, this.2⟩

/-- Every ring reachable from `NewRing(C)` has size `C` and holds at most `C` bytes. -/
theorem Ring.Reachable_bound (grow : Nat → Nat → Nat) (C : Int) (r : Ring)
    (h : Ring.Reachable grow C r) : 0 ≤ C ∧ r.size = C.toNat ∧ r.buffer.len ≤ r.size := by
  obtain ⟨r0, calls, hnew, hrun⟩ := h
  obtain ⟨hC0, hr0⟩ := NewRing_ok C r0 hnew
  have hk := Ring.run_keeps grow calls r0 r hrun (by subst hr0; simp [Slice.make, Slice.len])
  exact ⟨hC0, by rw [hk.1, hr0], hk.2⟩

/-- On a reachable ring a chunk longer than `C` is never stored: a `Write` of it that
returns has rejected it and changed nothing. -/
theorem Ring.Write_oversized_never_stored (grow : Nat → Nat → Nat) (C : Int) (r r1 : Ring)
    (p : List Byte) (res : WriteResult) (hreach : Ring.Reachable grow C r)
    (hp : C < (p.length : Int)) (h : r.Write grow p = Outcome.ok (r1, res)) :
    res = ⟨0, some Error.tooLarge⟩ ∧ r1 = r := by
  obtain ⟨hC0, hsz, hlen⟩ := Ring.Reachable_bound grow C r hreach
  obtain ⟨_, hcase⟩ := Ring.Write_ok grow r r1 p res h
  rcases hcase with ⟨hres, hr, _⟩ | ⟨_, hfit, _⟩ | ⟨_, _, hk, _⟩
  · exact ⟨hres, hr⟩
  · omega
  · omega

theorem Ring.Write_fits (grow : Nat → Nat → Nat) (r : Ring) (p : List Byte)
    (h0 : 0 < p.length) (hcap : p.length ≤ r.buffer.cap)
    (hfit : r.buffer.len + p.length ≤ r.size) :
    r.Write grow p
      = Outcome.ok ({ r with buffer := r.buffer.append grow p }, ⟨p.length, none⟩) := by
  unfold Ring.Write
  rw [if_neg (by omega), if_neg (by omega), if_neg (by omega)]

theorem Ring.Write_evicts (grow : Nat → Nat → Nat) (r : Ring) (p : List Byte)
    (h0 : 0 < p.length) (hcap : p.length ≤ r.buffer.cap)
    (hover : r.size < r.buffer.len + p.length) (hhave : p.length ≤ r.buffer.len) :
    r.Write grow p
      = Outcome.ok
          ({ r with
              buffer := Slice.append grow ⟨r.buffer.data.drop p.length, r.buffer.spare⟩ p },
            ⟨p.length, none⟩) := by
  unfold Ring.Write
  rw [if_neg (by omega), if_neg (by omega), if_pos (by omega)]
  simp [Slice.reslice, hhave]

theorem flatten_length_uniform (k : Nat) (cs : List (List Byte))
    (h : ∀ c ∈ cs, c.length = k) : cs.flatten.length = cs.length * k := by
  induction cs with
  | nil => simp
  | cons c t ih =>
    have hc : c.length = k := h c (by simp)
    have ht := ih (fun x hx => h x (by simp [hx]))
    simp [hc, ht, Nat.add_mul, Nat.add_comm]

theorem drop_flatten_uniform (k : Nat) (cs : List (List Byte)) (j : Nat)
    (h : ∀ c ∈ cs, c.length = k) : (cs.drop j).flatten = cs.flatten.drop (j * k) := by
  induction j generalizing cs with
  | zero => simp
  | succ j ih =>
    cases cs with
    | nil => simp
    | cons c t =>
      have hc : c.length = k := h c (by simp)
      have ht := ih t (fun x hx => h x (by simp [hx]))
      have hjk : (j + 1) * k = c.length + j * k := by rw [hc, Nat.add_mul]; omega
      simp only [List.drop_succ_cons, List.flatten_cons]
      rw [ht, hjk, List.drop_append]

/-- Writing chunks of one length `k` to a ring that holds whole chunks of that length
keeps the last `size / k` of them. -/
theorem Ring.writeAll_uniform (grow : Nat → Nat → Nat) (k : Nat) (hk : 0 < k)
    (chunks : List (List Byte)) (hchunks : ∀ c ∈ chunks, c.length = k)
    (r : Ring) (kept : List (List Byte)) (hkept : ∀ c ∈ kept, c.length = k)
    (hsize : k ≤ r.size) (hcount : kept.length ≤ r.size / k)
    (hdata : r.buffer.data = kept.flatten) (hcap : k ≤ r.buffer.cap) :
    ∃ r1, Ring.writeAll grow r chunks
        = Outcome.ok (r1, List.replicate chunks.length ⟨k, none⟩) ∧
      r1.size = r.size ∧
      r1.buffer.data
        = ((kept ++ chunks).drop ((kept ++ chunks).length - r.size / k)).flatten := by
  induction chunks generalizing r kept with
  | nil =>
    refine ⟨r, rfl, rfl, ?_⟩
    have : kept.length - r.size / k = 0 := by omega
    simp [hdata, this]
  | cons c cs ih =>
    have hc : c.length = k := hchunks c (by simp)
    have hcs : ∀ x ∈ cs, x.length = k := fun x hx => hchunks x (by simp [hx])
    have hlen : r.buffer.len = kept.length * k := by
      unfold Slice.len
      rw [hdata, flatten_length_uniform k kept hkept]
    have hM : 1 ≤ r.size / k := (Nat.le_div_iff_mul_le hk).mpr (by omega)
    by_cases hroom : kept.length < r.size / k
    · -- the chunk fits: nothing is dropped
      have hfit : r.buffer.len + c.length ≤ r.size := by
        have h1 : (kept.length + 1) * k ≤ r.size := (Nat.le_div_iff_mul_le hk).mp hroom
        rw [hlen, hc]
        rw [Nat.add_mul] at h1
        omega
      have hw := Ring.Write_fits grow r c (by omega) (by omega) hfit
      have hcap1 := Slice.append_cap grow r.buffer c
      obtain ⟨r1, hrun, hsz, hd⟩ := ih hcs { r with buffer := r.buffer.append grow c }
        (kept ++ [c])
        (by
          intro x hx
          rcases List.mem_append.mp hx with h | h
          · exact hkept x h
          · simp at h; rw [h]; exact hc)
        hsize (by simpa using hroom)
        (by simp [Slice.append_data, hdata])
        (by show k ≤ (r.buffer.append grow c).cap; omega)
      refine ⟨r1, ?_, hsz, ?_⟩
      · simp only [Ring.writeAll, hw, hrun]
        simp [List.replicate_succ, hc]
      · rw [hd]
        simp
    · -- the ring is full of chunks: the oldest chunk goes
      have hfull : kept.length = r.size / k := by omega
      cases kept with
      | nil => simp at hfull; omega
      | cons x t =>
        have hx : x.length = k := hkept x (by simp)
        have ht : ∀ y ∈ t, y.length = k := fun y hy => hkept y (by simp [hy])
        have hover : r.size < r.buffer.len + c.length := by
          have h1 : ¬ ((x :: t).length + 1) * k ≤ r.size := by
            rw [← Nat.le_div_iff_mul_le hk]; omega
          rw [hlen, hc]
          rw [Nat.add_mul] at h1
          omega
        have hhave : c.length ≤ r.buffer.len := by
          rw [hlen, hc]
          simp only [List.length_cons, Nat.add_mul]
          omega
        have hw := Ring.Write_evicts grow r c (by omega) (by omega) hover hhave
        have hdrop : r.buffer.data.drop c.length = t.flatten := by
          rw [hdata, hc, ← hx]
          simp
        have hcap1 := Slice.append_cap grow ⟨r.buffer.data.drop c.length, r.buffer.spare⟩ c
        obtain ⟨r1, hrun, hsz, hd⟩ := ih hcs
          { r with
            buffer := Slice.append grow ⟨r.buffer.data.drop c.length, r.buffer.spare⟩ c }
          (t ++ [c])
          (by
            intro y hy
            rcases List.mem_append.mp hy with h | h
            · exact ht y h
            · simp at h; rw [h]; exact hc)
          hsize (by simp at hfull ⊢; omega)
          (by simp [Slice.append_data, hdrop])
          (by
            show k ≤ (Slice.append grow ⟨r.buffer.data.drop c.length, r.buffer.spare⟩ c).cap
            unfold Slice.len at hcap1
            omega)
        refine ⟨r1, ?_, hsz, ?_⟩
        · simp only [Ring.writeAll, hw, hrun]
          simp [List.replicate_succ, hc]
        · rw [hd]
          have e1 : (t ++ [c] ++ cs).length - r.size / k = cs.length := by
            simp at hfull ⊢; omega
          have e2 : (x :: t ++ c :: cs).length - r.size / k = cs.length + 1 := by
            simp at hfull ⊢; omega
          rw [e1, e2]
          simp

theorem State.run_append (grow : Nat → Nat → Nat) (a b : List Call) (s : State) (w : World) :
    State.run grow s w (a ++ b)
      = match State.run grow s w a with
        | Outcome.ok (s1, w1) => State.run grow s1 w1 b
        | Outcome.panicked => Outcome.panicked
        | Outcome.fatal => Outcome.fatal := by
  induction a generalizing s w with
  | nil => simp [State.run]
  | cons c cs ih =>
    simp only [List.cons_append, State.run]
    cases hstep : s.step grow w c with
    | ok v => obtain ⟨s1, w1⟩ := v; simp [ih]
    | panicked => simp
    | fatal => simp

theorem State.sinksOk_append (grow : Nat → Nat → Nat) (a b : List Call) (s s1 : State)
    (w w1 : World) (hrun : State.run grow s w a = Outcome.ok (s1, w1))
    (hok : State.sinksOk grow s w (a ++ b) = true) :
    State.sinksOk grow s1 w1 b = true := by
  induction a generalizing s w with
  | nil =>
    simp only [State.run] at hrun
    injection hrun with hrun
    injection hrun with h1 h2
    subst h1 h2
    simpa using hok
  | cons c cs ih =>
    simp only [List.cons_append, State.sinksOk, Bool.and_eq_true] at hok
    simp only [State.run] at hrun
    cases hstep : s.step grow w c with
    | ok v =>
      obtain ⟨s2, w2⟩ := v
      simp only [hstep] at hrun hok
      exact ih s2 w2 hrun hok.2
    | panicked => simp [hstep] at hrun
    | fatal => simp [hstep] at hrun

/-- While `Output` is false and no `Start` is called, the file is not touched. -/
theorem State.run_buffering (grow : Nat → Nat → Nat) (calls : List Call) (s s2 : State)
    (w w2 : World) (hno : Call.Start ∉ calls) (hmode : s.Output = false)
    (hrun : State.run grow s w calls = Outcome.ok (s2, w2)) :
    w2 = w ∧ s2.Output = false := by
  induction calls generalizing s with
  | nil =>
    simp only [State.run] at hrun
    injection hrun with hrun
    injection hrun with h1 h2
    subst h1 h2
    exact ⟨rfl, hmode⟩
  | cons c cs ih =>
    have hno1 : Call.Start ∉ cs := fun h => hno (by simp [h])
    simp only [State.run] at hrun
    cases c with
    | Start => simp at hno
    | Stop =>
      simp only [State.step] at hrun
      exact ih (s.Stop w).1 hno1 rfl hrun
    | Write p =>
      cases hw : s.Ring.Write grow p with
      | ok v =>
        obtain ⟨r1, res⟩ := v
        have hstep : s.step grow w (Call.Write p)
            = Outcome.ok ({ s with Ring := r1 }, w) := by
          simp [State.step, State.Write, hmode, hw]
        simp only [hstep] at hrun
        exact ih { s with Ring := r1 } hno1 hmode hrun
      | panicked => simp [State.step, State.Write, hmode, hw] at hrun
      | fatal => simp [State.step, State.Write, hmode, hw] at hrun

/-- While `Output` is true, the handle is open and every sink operation succeeds, the
file grows by the chunks written before the first `Stop`. -/
theorem State.run_recording (grow : Nat → Nat → Nat) (calls : List Call) (s s2 : State)
    (w w2 : World) (base : List Byte) (hno : Call.Start ∉ calls)
    (hmode : s.Output = true) (hfile : s.file = File.opened)
    (hbase : w.content = some base)
    (hrun : State.run grow s w calls = Outcome.ok (s2, w2))
    (hok : State.sinksOk grow s w calls = true) :
    w2.content = some (base ++ recorded calls) := by
  induction calls generalizing s w base with
  | nil =>
    simp only [State.run] at hrun
    injection hrun with hrun
    injection hrun with h1 h2
    subst h1 h2
    simpa [recorded] using hbase
  | cons c cs ih =>
    have hno1 : Call.Start ∉ cs := fun h => hno (by simp [h])
    simp only [State.run] at hrun
    cases c with
    | Start => simp at hno
    | Stop =>
      simp only [State.step] at hrun
      have := State.run_buffering grow cs (s.Stop w).1 s2 (s.Stop w).2 w2 hno1 rfl hrun
      rw [this.1]
      simpa [recorded, State.Stop] using hbase
    | Write p =>
      simp only [State.sinksOk, Bool.and_eq_true] at hok
      have hsink : (File.opened.Write w p).2.err = none := by
        simpa [State.sinkOk, hmode, hfile] using hok.1
      have hwr := File.Write_opened_err_none w base p hbase hsink
      have hstep : s.step grow w (Call.Write p)
          = Outcome.ok (s, { w with content := some (base ++ p) }) := by
        simp [State.step, State.Write, hmode, hfile, hwr]
      simp only [hstep] at hrun hok
      have := ih s { w with content := some (base ++ p) } (base ++ p) hno1 hmode hfile rfl
        hrun hok.2
      simpa [recorded] using this

/-- What `NewState` builds. -/
theorem NewState_ok (C : Int) (path : String) (s0 : State)
    (h : NewState C path = Outcome.ok s0) :
    0 ≤ C ∧
      s0 =
        { size := C, file := File.nil, Path := path, Output := false,
          Ring := { size := C.toNat, buffer := Slice.make C.toNat } } := by
  unfold NewState at h
  cases hr : NewRing C with
  | ok r =>
    obtain ⟨hC, hr0⟩ := NewRing_ok C r hr
    simp only [hr] at h
    injection h with h
    subst hr0
    exact ⟨hC, h.symm⟩
  | panicked => simp [hr] at h
  | fatal => simp [hr] at h

/-- What a returning `Start` did. -/
theorem State.Start_ok (s s1 : State) (w w1 : World)
    (h : s.Start w = Outcome.ok (s1, w1)) :
    w.createFails = false ∧
      s1 = { s with file := File.opened, Ring := s.Ring.Dump.1, Output := true } ∧
      w1 = (File.opened.Write { w with content := some [] } s.Ring.buffer.data).1 := by
  unfold State.Start osCreate at h
  cases hc : w.createFails with
  | true => simp [hc] at h
  | false =>
    simp only [hc] at h
    simp only [Bool.false_eq_true, if_false] at h
    injection h with h
    injection h with h1 h2
    refine ⟨rfl, h1.symm, ?_⟩
    rw [← h2]
    simp [Ring.Dump, hc]

/-- The invariant of the state machine: the handle is open exactly while `Output` is
true, and while `Output` is true the ring is empty. -/
theorem State.step_keeps (grow : Nat → Nat → Nat) (s s2 : State) (w w2 : World) (c : Call)
    (h : s.step grow w c = Outcome.ok (s2, w2))
    (hfile : s.file = File.opened ↔ s.Output = true)
    (hring : s.Output = true → s.Ring.buffer.data = []) :
    (s2.file = File.opened ↔ s2.Output = true) ∧
      (s2.Output = true → s2.Ring.buffer.data = []) := by
  cases c with
  | Start =>
    obtain ⟨_, hs, _⟩ := State.Start_ok s s2 w w2 h
    subst hs
    exact ⟨by simp, fun _ => by simp [Ring.Dump, Slice.make]⟩
  | Stop =>
    simp only [State.step] at h
    injection h with h
    injection h with h1 h2
    subst h1 h2
    constructor
    · cases hf : s.file <;> simp [State.Stop, File.Close, hf]
    · intro hout
      simp [State.Stop] at hout
  | Write p =>
    simp only [State.step, State.Write] at h
    cases hout : s.Output with
    | true =>
      simp only [hout, if_true] at h
      injection h with h
      injection h with h1 h2
      subst h1
      exact ⟨hfile, fun _ => hring hout⟩
    | false =>
      simp only [hout] at h
      cases hw : s.Ring.Write grow p with
      | ok v =>
        obtain ⟨r1, res⟩ := v
        simp only [hw] at h
        simp only [Bool.false_eq_true, if_false] at h
        injection h with h
        injection h with h1 h2
        subst h1 h2
        constructor
        · simpa [hout] using hfile
        · intro h'
          simp [hout] at h'
      | panicked => simp [hw] at h
      | fatal => simp [hw] at h

theorem State.run_invariant (grow : Nat → Nat → Nat) (calls : List Call) (s s2 : State)
    (w w2 : World) (h : State.run grow s w calls = Outcome.ok (s2, w2))
    (hfile : s.file = File.opened ↔ s.Output = true)
    (hring : s.Output = true → s.Ring.buffer.data = []) :
    (s2.file = File.opened ↔ s2.Output = true) ∧
      (s2.Output = true → s2.Ring.buffer.data = []) := by
  induction calls generalizing s w with
  | nil =>
    simp only [State.run] at h
    injection h with h
    injection h with h1 h2
    subst h1 h2
    exact ⟨hfile, hring⟩
  | cons c cs ih =>
    simp only [State.run] at h
    cases hstep : s.step grow w c with
    | ok v =>
      obtain ⟨s1, w1⟩ := v
      simp only [hstep] at h
      obtain ⟨h1, h2⟩ := State.step_keeps grow s s1 w w1 c hstep hfile hring
      exact ih s1 w1 h h1 h2
    | panicked => simp [hstep] at h
    | fatal => simp [hstep] at h

/-- The invariant holds in every state that calls on `NewState(C, path)` reach. -/
theorem State.exec_keeps (grow : Nat → Nat → Nat) (C : Int) (path : String) (w0 : World)
    (calls : List Call) (s : State) (w : World)
    (h : State.exec grow C path w0 calls = Outcome.ok (s, w)) :
    (s.file = File.opened ↔ s.Output = true) ∧
      (s.Output = true → s.Ring.buffer.data = []) := by
  unfold State.exec at h
  cases hnew : NewState C path with
  | ok s0 =>
    simp only [hnew] at h
    obtain ⟨_, hs0⟩ := NewState_ok C path s0 hnew
    exact State.run_invariant grow calls s0 s w0 w h (by subst hs0; simp) (by subst hs0; simp)
  | panicked => simp [hnew] at h
  | fatal => simp [hnew] at h

/-- While `Output` is false and no `Start` is called, the ring of the state goes
through the `Write` calls of the sequence. -/
theorem State.run_buffering_ring (grow : Nat → Nat → Nat) (calls : List Call)
    (s s2 : State) (w w2 : World) (log : List Byte) (hno : Call.Start ∉ calls)
    (hmode : s.Output = false)
    (hrun : State.run grow s w calls = Outcome.ok (s2, w2)) :
    ∃ log2, Ring.runLog grow s.Ring log (ringWrites calls) = Outcome.ok (s2.Ring, log2) := by
  induction calls generalizing s log with
  | nil =>
    simp only [State.run] at hrun
    injection hrun with hrun
    injection hrun with h1 h2
    subst h1 h2
    exact ⟨log, rfl⟩
  | cons c cs ih =>
    have hno1 : Call.Start ∉ cs := fun h => hno (by simp [h])
    simp only [State.run] at hrun
    cases c with
    | Start => simp at hno
    | Stop =>
      simp only [State.step] at hrun
      exact ih (s.Stop w).1 log hno1 rfl hrun
    | Write p =>
      cases hw : s.Ring.Write grow p with
      | ok v =>
        obtain ⟨r1, res⟩ := v
        have hstep : s.step grow w (Call.Write p)
            = Outcome.ok ({ s with Ring := r1 }, w) := by
          simp [State.step, State.Write, hmode, hw]
        simp only [hstep] at hrun
        obtain ⟨log2, h2⟩ := ih { s with Ring := r1 }
          (if res.err = none then log ++ p else log) hno1 hmode hrun
        exact ⟨log2, by simp only [ringWrites, Ring.runLog, hw]; exact h2⟩
      | panicked => simp [State.step, State.Write, hmode, hw] at hrun
      | fatal => simp [State.step, State.Write, hmode, hw] at hrun

/-- While `Output` is true and no `Start` is called, the ring of the state goes through
the `Write` calls that follow the first `Stop`, and through no other. -/
theorem State.run_recording_ring (grow : Nat → Nat → Nat) (calls : List Call)
    (s s2 : State) (w w2 : World) (log : List Byte) (hno : Call.Start ∉ calls)
    (hmode : s.Output = true)
    (hrun : State.run grow s w calls = Outcome.ok (s2, w2)) :
    ∃ log2, Ring.runLog grow s.Ring log (ringWrites (afterStop calls))
      = Outcome.ok (s2.Ring, log2) := by
  induction calls generalizing s w with
  | nil =>
    simp only [State.run] at hrun
    injection hrun with hrun
    injection hrun with h1 h2
    subst h1 h2
    exact ⟨log, rfl⟩
  | cons c cs ih =>
    have hno1 : Call.Start ∉ cs := fun h => hno (by simp [h])
    simp only [State.run] at hrun
    cases c with
    | Start => simp at hno
    | Stop =>
      simp only [State.step] at hrun
      exact State.run_buffering_ring grow cs (s.Stop w).1 s2 (s.Stop w).2 w2 log hno1 rfl hrun
    | Write p =>
      have hstep : s.step grow w (Call.Write p)
          = Outcome.ok (s, (s.file.Write w p).1) := by
        simp [State.step, State.Write, hmode]
      simp only [hstep] at hrun
      exact ih s (s.file.Write w p).1 hno1 hmode hrun

/-- A `Write` on an empty ring whose slice has the capacity `size`, which is what
`NewRing` and `Dump` leave: the chunk is rejected when it is longer than `size` and
becomes the contents otherwise. -/
theorem Ring.Write_on_empty (grow : Nat → Nat → Nat) (n : Nat) (p : List Byte) :
    (n < p.length →
        Ring.Write grow { size := n, buffer := Slice.make n } p
          = Outcome.ok ({ size := n, buffer := Slice.make n }, ⟨0, some Error.tooLarge⟩)) ∧
      (p.length ≤ n →
        Ring.Write grow { size := n, buffer := Slice.make n } p
          = Outcome.ok ({ size := n, buffer := ⟨p, n - p.length⟩ }, ⟨p.length, none⟩)) := by
  constructor
  · intro h
    unfold Ring.Write
    rw [if_neg (by omega), if_pos (by simp only [Slice.cap, Slice.make, List.length_nil]; omega)]
  · intro h
    have := Ring.Write_after_Dump grow { size := n, buffer := Slice.make n } p h
    simpa [Ring.Dump] using this

/-- The bytes an open handle takes are laid down behind what the file holds. -/
theorem File.Write_opened_content (w : World) (c p : List Byte) (hc : w.content = some c) :
    (File.opened.Write w p).1.content = some (c ++ p.take (File.opened.Write w p).2.n) := by
  unfold File.Write
  simp only [hc]

theorem File.Write_opened_empty (w : World) (c : List Byte) (hc : w.content = some c) :
    File.opened.Write w [] = (w, ⟨0, none⟩) := by
  obtain ⟨content, createFails, quota, closeFails⟩ := w
  simp only at hc
  subst hc
  unfold File.Write
  cases quota <;> simp

/-- `Ring.Write` never ends the process through `log.Fatal`. -/
theorem Ring.Write_ne_fatal (grow : Nat → Nat → Nat) (r : Ring) (p : List Byte) :
    r.Write grow p ≠ Outcome.fatal := by
  unfold Ring.Write
  split
  · simp
  · split
    · simp
    · split
      · split <;> simp
      · simp

/-- A `Write` on an empty ring whose slice has the capacity `size`, seen from the
caller: an error exactly for a chunk longer than `size`. -/
theorem Ring.Write_threshold (grow : Nat → Nat → Nat) (n : Nat) (p : List Byte) :
    ∃ r1 res, Ring.Write grow { size := n, buffer := Slice.make n } p = Outcome.ok (r1, res) ∧
      (res.err ≠ none ↔ n < p.length) ∧
      (n < p.length → res = ⟨0, some Error.tooLarge⟩ ∧
        r1 = { size := n, buffer := Slice.make n } ∧ r1.buffer.data = []) ∧
      (p.length ≤ n → res = ⟨p.length, none⟩ ∧ r1.buffer.data = p) := by
  obtain ⟨hbig, hfit⟩ := Ring.Write_on_empty grow n p
  by_cases h : n < p.length
  · refine ⟨_, _, hbig h, ?_, ?_, ?_⟩
    · simp [h]
    · intro _
      exact ⟨rfl, rfl, rfl⟩
    · intro h2
      omega
  · refine ⟨_, _, hfit (by omega), ?_, ?_, ?_⟩
    · simp [h]
    · intro h2
      omega
    · intro _
      exact ⟨rfl, rfl⟩

/-! ## The claims of the specification -/

/-- Claim C1.  For a capacity `C > 0` and a sequence of `Start`, `Stop` and `Write`
calls on `NewState(C, path)` in which every call returns and every sink operation
succeeds: split the sequence at its last `Start` into `pre`, the `Start` and `post`.  The
file then holds the contents the ring had when that `Start` was called (the ring of the
state `s1` that `pre` leads to), followed by the chunks of the `Write` calls of `post`
up to its first `Stop`, concatenated in call order with nothing in between. -/
theorem File_holds_window_then_samples (grow : Nat → Nat → Nat) (C : Int) (path : String)
    (w0 : World) (pre post : List Call) (s1 s2 : State) (w1 w2 : World)
    (_hC : 0 < C) (hpost : Call.Start ∉ post)
    (hpre : State.exec grow C path w0 pre = Outcome.ok (s1, w1))
    (hall : State.exec grow C path w0 (pre ++ Call.Start :: post) = Outcome.ok (s2, w2))
    (hsinks : State.execSinksOk grow C path w0 (pre ++ Call.Start :: post) = true) :
    w2.content = some (s1.Ring.buffer.data ++ recorded post) := by
  unfold State.exec at hpre hall
  unfold State.execSinksOk at hsinks
  cases hnew : NewState C path with
  | panicked => simp [hnew] at hpre
  | fatal => simp [hnew] at hpre
  | ok s0 =>
    simp only [hnew] at hpre hall hsinks
    rw [State.run_append, hpre] at hall
    have hok := State.sinksOk_append grow pre (Call.Start :: post) s0 s1 w0 w1 hpre hsinks
    simp only [State.run, State.step] at hall
    simp only [State.sinksOk, Bool.and_eq_true, State.step] at hok
    cases hcreate : w1.createFails with
    | true => simp [State.sinkOk, osCreate, hcreate] at hok
    | false =>
      have hwr : (File.opened.Write { w1 with content := some [] } s1.Ring.buffer.data).2.err
          = none := by
        simpa [State.sinkOk, osCreate, hcreate, Ring.Dump] using hok.1
      have hfull := File.Write_opened_err_none { w1 with content := some [] } []
        s1.Ring.buffer.data rfl hwr
      have hstart : s1.Start w1
          = Outcome.ok ({ s1 with file := File.opened, Ring := s1.Ring.Dump.1, Output := true },
              { w1 with content := some s1.Ring.buffer.data }) := by
        have hcr : osCreate w1 = ({ w1 with content := some [] }, some File.opened) := by
          simp [osCreate, hcreate]
        simp only [State.Start, hcr, Ring.Dump, hfull]
        simp
      simp only [hstart] at hall hok
      exact State.run_recording grow post _ s2 _ w2 s1.Ring.buffer.data hpost rfl rfl rfl
        hall hok.2

/-- The statement of C1 at a concrete input. -/
theorem File_holds_window_then_samples_witness :
    (0 : Int) < 10 ∧
      Call.Start ∉ [Call.Write [1, 2], Call.Stop, Call.Write [3]] ∧
      State.exec growDouble 10 "out.raw" plainWorld [Call.Write [88, 89, 90]]
        = Outcome.ok (xyzState, plainWorld) ∧
      State.exec growDouble 10 "out.raw" plainWorld
          ([Call.Write [88, 89, 90]] ++
            Call.Start :: [Call.Write [1, 2], Call.Stop, Call.Write [3]])
        = Outcome.ok
            ({ size := 10, file := File.closed, Path := "out.raw", Output := false,
               Ring := { size := 10, buffer := ⟨[3], 9⟩ } },
             { plainWorld with content := some [88, 89, 90, 1, 2] }) ∧
      State.execSinksOk growDouble 10 "out.raw" plainWorld
          ([Call.Write [88, 89, 90]] ++
            Call.Start :: [Call.Write [1, 2], Call.Stop, Call.Write [3]]) = true ∧
      ({ plainWorld with content := some [88, 89, 90, 1, 2] } : World).content
        = some (xyzState.Ring.buffer.data
            ++ recorded [Call.Write [1, 2], Call.Stop, Call.Write [3]]) :=
  ⟨by decide, by decide, by decide, by decide, by decide,
    File_holds_window_then_samples growDouble 10 "out.raw" plainWorld
      [Call.Write [88, 89, 90]] [Call.Write [1, 2], Call.Stop, Call.Write [3]]
      xyzState
      { size := 10, file := File.closed, Path := "out.raw", Output := false,
        Ring := { size := 10, buffer := ⟨[3], 9⟩ } }
      plainWorld { plainWorld with content := some [88, 89, 90, 1, 2] }
      (by decide) (by decide) (by decide) (by decide) (by decide)⟩

/-- Claim C2 as stated fails.  `NewState(10, "out.raw")` reaches by `Write("XYZ")` a
state with `Output = false` and ring contents `"XYZ"`.  In a world where `os.Create`
succeeds and the file takes two bytes, `Start` returns with `Output = true` and an
empty ring, and the file holds `"XY"`, not `"XYZ"`: the result of `s.file.Write` is
dropped. -/
theorem Start_flush_cut_short :
    State.exec growDouble 10 "out.raw" tightWorld [Call.Write [88, 89, 90]]
        = Outcome.ok (xyzState, tightWorld) ∧
      xyzState.Output = false ∧
      xyzState.Ring.buffer.data = [88, 89, 90] ∧
      (osCreate tightWorld).2 = some File.opened ∧
      xyzState.Start tightWorld
        = Outcome.ok (recordingState, { tightWorld with content := some [88, 89] }) ∧
      ({ tightWorld with content := some [88, 89] } : World).content
        ≠ some xyzState.Ring.buffer.data := by
  decide

/-- Claim C2, amended.  For a state with `Output = false` and whatever the file held
before: when `os.Create` succeeds and the new file takes the whole of the drained
contents, `Start` returns, the file holds exactly the former ring contents, `Output`
is true, the handle is open, and the ring is empty with its size unchanged. -/
theorem Start_flushes_ring (s : State) (w : World) (_hmode : s.Output = false)
    (hcreate : w.createFails = false) (hsink : s.sinkOk w Call.Start = true) :
    ∃ s1 w1, s.Start w = Outcome.ok (s1, w1) ∧
      w1.content = some s.Ring.buffer.data ∧
      s1.Output = true ∧ s1.file = File.opened ∧
      s1.Ring.buffer.data = [] ∧ s1.Ring.size = s.Ring.size := by
  have hwr : (File.opened.Write { w with content := some [] } s.Ring.buffer.data).2.err
      = none := by
    simpa [State.sinkOk, osCreate, hcreate, Ring.Dump] using hsink
  have hfull := File.Write_opened_err_none { w with content := some [] } []
    s.Ring.buffer.data rfl hwr
  refine ⟨{ s with file := File.opened, Ring := s.Ring.Dump.1, Output := true },
    (File.opened.Write { w with content := some [] } s.Ring.Dump.2).1, ?_, ?_, ?_⟩
  · simp only [State.Start, osCreate, hcreate, Ring.Dump]
    rfl
  · simp [Ring.Dump, hfull]
  · simp [Ring.Dump, Slice.make]

/-- The statement of C2 at a concrete input. -/
theorem Start_flushes_ring_witness :
    xyzState.Output = false ∧ plainWorld.createFails = false ∧
      xyzState.sinkOk plainWorld Call.Start = true ∧
      ∃ s1 w1, xyzState.Start plainWorld = Outcome.ok (s1, w1) ∧
        w1.content = some xyzState.Ring.buffer.data ∧
        s1.Output = true ∧ s1.file = File.opened ∧
        s1.Ring.buffer.data = [] ∧ s1.Ring.size = xyzState.Ring.size :=
  ⟨by decide, by decide, by decide,
    Start_flushes_ring xyzState plainWorld (by decide) (by decide) (by decide)⟩

/-- Claim C3.  For a capacity `C > 0`, a chunk length `k` with `0 < k ≤ C` and chunks
`c1..cn` all of length `k`, written in turn to `NewRing(C)`: every `Write` returns
`(k, nil)`, and a following `Dump` returns the concatenation of the last
`min(n, C / k)` chunks; when `k` divides `C` these are the last `min(n * k, C)` bytes
written. -/
theorem Ring_constant_chunks (grow : Nat → Nat → Nat) (C : Int) (k : Nat)
    (chunks : List (List Byte)) (_hC : 0 < C) (hk : 0 < k) (hkC : (k : Int) ≤ C)
    (hchunks : ∀ c ∈ chunks, c.length = k) :
    ∃ r, Ring.execWrites grow C chunks
        = Outcome.ok (r, List.replicate chunks.length ⟨k, none⟩) ∧
      r.Dump.2
        = (chunks.drop (chunks.length - min chunks.length (C.toNat / k))).flatten ∧
      (k ∣ C.toNat →
        r.Dump.2
          = chunks.flatten.drop (chunks.length * k - min (chunks.length * k) C.toNat)) := by
  have hnew : NewRing C = Outcome.ok { size := C.toNat, buffer := Slice.make C.toNat } := by
    unfold NewRing
    rw [if_neg (by omega)]
  obtain ⟨r, hrun, hsz, hd⟩ := Ring.writeAll_uniform grow k hk chunks hchunks
    { size := C.toNat, buffer := Slice.make C.toNat } [] (by simp)
    (by show k ≤ C.toNat; omega) (by simp) (by simp [Slice.make])
    (by simp only [Slice.cap, Slice.make, List.length_nil]; omega)
  have hd1 : r.Dump.2
      = (chunks.drop (chunks.length - min chunks.length (C.toNat / k))).flatten := by
    have e : chunks.length - min chunks.length (C.toNat / k)
        = chunks.length - C.toNat / k := by omega
    simp only [Ring.Dump]
    rw [hd, e]
    simp
  refine ⟨r, ?_, hd1, ?_⟩
  · simp only [Ring.execWrites, hnew, hrun]
  · intro hdiv
    rw [hd1, drop_flatten_uniform k chunks _ hchunks]
    congr 1
    obtain ⟨m, hm⟩ := hdiv
    have hmk : C.toNat / k = m := by rw [hm]; exact Nat.mul_div_cancel_left m hk
    rw [hmk, hm]
    rcases Nat.le_total chunks.length m with h | h
    · have h1 : chunks.length * k ≤ k * m := by
        rw [Nat.mul_comm k m]; exact Nat.mul_le_mul_right k h
      rw [Nat.min_eq_left h, Nat.min_eq_left h1]
      simp
    · have h1 : k * m ≤ chunks.length * k := by
        rw [Nat.mul_comm k m]; exact Nat.mul_le_mul_right k h
      rw [Nat.min_eq_right h, Nat.min_eq_right h1, Nat.sub_mul, Nat.mul_comm k m]

/-- The statement of C3 at a concrete input. -/
theorem Ring_constant_chunks_witness :
    (0 : Int) < 10 ∧ 0 < 4 ∧ ((4 : Nat) : Int) ≤ 10 ∧
      (∀ c ∈ [[1, 1, 1, 1], [2, 2, 2, 2], [3, 3, 3, 3], [4, 4, 4, 4]],
        (c : List Byte).length = 4) ∧
      ∃ r, Ring.execWrites growDouble 10
            [[1, 1, 1, 1], [2, 2, 2, 2], [3, 3, 3, 3], [4, 4, 4, 4]]
          = Outcome.ok (r, List.replicate 4 ⟨4, none⟩) ∧
        r.Dump.2 = [3, 3, 3, 3, 4, 4, 4, 4] :=
  ⟨by decide, by decide, by decide, by decide,
    (Ring_constant_chunks growDouble 10 4
      [[1, 1, 1, 1], [2, 2, 2, 2], [3, 3, 3, 3], [4, 4, 4, 4]]
      (by decide) (by decide) (by decide) (by decide)).imp
      (fun _ h => ⟨h.1, h.2.1.trans (by decide)⟩)⟩

/-- Claim C4 on the code, at the input the specification gives: capacity 10,
`Write("AAAAA")`, then `Write("BBBBBBB")`.  The second call passes the size test
(`7 ≤ cap = 10`), finds `5 + 7 > 10` and evaluates `r.buffer[7:]` on a slice of length
5, which panics; it does not leave `"BBBBBBB"`.  This holds whatever capacity `append`
chooses. -/
theorem Ring_Write_evicting_more_than_held_panics (grow : Nat → Nat → Nat) :
    Ring.execWrites grow 10 [[65, 65, 65, 65, 65]]
        = Outcome.ok (⟨10, ⟨[65, 65, 65, 65, 65], 5⟩⟩, [⟨5, none⟩]) ∧
      Ring.Write grow ⟨10, ⟨[65, 65, 65, 65, 65], 5⟩⟩ [66, 66, 66, 66, 66, 66, 66]
        = Outcome.panicked ∧
      Ring.execWrites grow 10 [[65, 65, 65, 65, 65], [66, 66, 66, 66, 66, 66, 66]]
        = Outcome.panicked :=
  ⟨rfl, rfl, rfl⟩

/-- Claim C5.  For a capacity `C > 0` and a sequence of `Write` and `Dump` calls on
`NewRing(C)` whose chunks are at most `C` long, the ring holds at most `C` bytes after
the calls; as the sequence is arbitrary, so it does after every call. -/
theorem Ring_length_bounded (grow : Nat → Nat → Nat) (C : Int) (calls : List RingCall)
    (r0 r : Ring) (_hC : 0 < C)
    (_hchunks : ∀ p, RingCall.Write p ∈ calls → (p.length : Int) ≤ C)
    (hnew : NewRing C = Outcome.ok r0)
    (hrun : Ring.run grow r0 calls = Outcome.ok r) :
    (r.buffer.len : Int) ≤ C := by
  obtain ⟨hC0, hr0⟩ := NewRing_ok C r0 hnew
  have h := Ring.run_keeps grow calls r0 r hrun (by subst hr0; simp [Slice.make, Slice.len])
  have hsz : r.size = C.toNat := by rw [h.1, hr0]
  have := h.2
  omega

/-- The statement of C5 at a concrete input. -/
theorem Ring_length_bounded_witness :
    (0 : Int) < 10 ∧
      (∀ p, RingCall.Write p ∈
          [RingCall.Write [1, 2, 3, 4, 5, 6], RingCall.Write [7, 8, 9, 10, 11, 12],
            RingCall.Dump, RingCall.Write [13]] → ((p.length : Nat) : Int) ≤ 10) ∧
      NewRing 10 = Outcome.ok ⟨10, ⟨[], 10⟩⟩ ∧
      Ring.run growDouble ⟨10, ⟨[], 10⟩⟩
          [RingCall.Write [1, 2, 3, 4, 5, 6], RingCall.Write [7, 8, 9, 10, 11, 12],
            RingCall.Dump, RingCall.Write [13]]
        = Outcome.ok ⟨10, ⟨[13], 9⟩⟩ ∧
      (((⟨10, ⟨[13], 9⟩⟩ : Ring).buffer.len : Nat) : Int) ≤ 10 :=
  have hchunks : ∀ p, RingCall.Write p ∈
      [RingCall.Write [1, 2, 3, 4, 5, 6], RingCall.Write [7, 8, 9, 10, 11, 12],
        RingCall.Dump, RingCall.Write [13]] → ((p.length : Nat) : Int) ≤ 10 := by
    intro p hp
    simp at hp
    rcases hp with rfl | rfl | rfl <;> decide
  ⟨by decide, hchunks, by decide, by decide,
    Ring_length_bounded growDouble 10 _ ⟨10, ⟨[], 10⟩⟩ ⟨10, ⟨[13], 9⟩⟩ (by decide) hchunks
      (by decide) (by decide)⟩

/-- Claim C6 on the code: capacity 10, eleven `Write` calls of one byte, then a `Write`
of eleven bytes.  The eleventh one-byte call reslices to capacity 9 and `append`
reallocates; with the capacity doubled to 18 the ring holds 10 bytes in a slice of
capacity 18.  The chunk of 11 bytes, larger than the ring, passes the test
`len(p) > cap(r.buffer)` and reaches `r.buffer[11:]` on a slice of length 10, which
panics; no error is returned. -/
theorem Ring_Write_oversized_after_growth_panics :
    Ring.execWrites growDouble 10 (List.replicate 11 [0])
        = Outcome.ok (⟨10, ⟨List.replicate 10 0, 8⟩⟩, List.replicate 11 ⟨1, none⟩) ∧
      (⟨10, ⟨List.replicate 10 0, 8⟩⟩ : Ring).buffer.cap = 18 ∧
      Ring.Write growDouble ⟨10, ⟨List.replicate 10 0, 8⟩⟩ (List.replicate 11 1)
        = Outcome.panicked := by
  decide

/-- Claim C7.  After any sequence of calls on `NewRing(C)`, the ring contents are a
suffix, at most `C` bytes long, of the concatenation in call order of the chunks that
`Write` accepted (returned a nil error for) since the last `Dump`. -/
theorem Ring_contents_suffix (grow : Nat → Nat → Nat) (C : Int) (calls : List RingCall)
    (r0 r : Ring) (log : List Byte)
    (hnew : NewRing C = Outcome.ok r0)
    (hrun : Ring.runLog grow r0 [] calls = Outcome.ok (r, log)) :
    r.buffer.data <:+ log ∧ (r.buffer.data.length : Int) ≤ C := by
  obtain ⟨hC0, hr0⟩ := NewRing_ok C r0 hnew
  have h := Ring.runLog_keeps grow calls r0 r [] log hrun
    (by subst hr0; simp [Slice.make, Slice.len]) (by subst hr0; simp [Slice.make])
  have hsz : r.size = C.toNat := by rw [h.1, hr0]
  have := h.2.1
  unfold Slice.len at this
  exact ⟨h.2.2, by omega⟩

/-- The statement of C7 at a concrete input. -/
theorem Ring_contents_suffix_witness :
    NewRing 10 = Outcome.ok ⟨10, ⟨[], 10⟩⟩ ∧
      Ring.runLog growDouble ⟨10, ⟨[], 10⟩⟩ []
          [RingCall.Write [9, 9], RingCall.Dump, RingCall.Write [1, 2, 3, 4, 5, 6],
            RingCall.Write (List.replicate 11 0), RingCall.Write [7, 8, 9, 10, 11, 12]]
        = Outcome.ok (⟨10, ⟨[7, 8, 9, 10, 11, 12], 2⟩⟩,
            [1, 2, 3, 4, 5, 6, 7, 8, 9, 10, 11, 12]) ∧
      ([7, 8, 9, 10, 11, 12] : List Byte) <:+ [1, 2, 3, 4, 5, 6, 7, 8, 9, 10, 11, 12] ∧
      ((([7, 8, 9, 10, 11, 12] : List Byte).length : Nat) : Int) ≤ 10 :=
  ⟨by decide, by decide,
    Ring_contents_suffix growDouble 10
      [RingCall.Write [9, 9], RingCall.Dump, RingCall.Write [1, 2, 3, 4, 5, 6],
        RingCall.Write (List.replicate 11 0), RingCall.Write [7, 8, 9, 10, 11, 12]]
      ⟨10, ⟨[], 10⟩⟩ ⟨10, ⟨[7, 8, 9, 10, 11, 12], 2⟩⟩
      [1, 2, 3, 4, 5, 6, 7, 8, 9, 10, 11, 12] (by decide) (by decide)⟩

/-- Claim C8.  `Dump` returns the contents of the ring and leaves it empty with the same
size and a capacity equal to the size, so that a chunk of any length up to the size is
accepted again and becomes the contents; on an empty ring `Dump` returns the empty
sequence, and a second `Dump` in a row returns the empty sequence. -/
theorem Dump_drains (r : Ring) :
    r.Dump.2 = r.buffer.data ∧
      r.Dump.1.buffer.data = [] ∧
      r.Dump.1.size = r.size ∧
      r.Dump.1.buffer.cap = r.size ∧
      (∀ (grow : Nat → Nat → Nat) (p : List Byte), p.length ≤ r.size →
        ∃ r1, r.Dump.1.Write grow p = Outcome.ok (r1, ⟨p.length, none⟩) ∧
          r1.buffer.data = p ∧ r1.size = r.size) ∧
      (r.buffer.data = [] → r.Dump.2 = []) ∧
      r.Dump.1.Dump.2 = [] := by
  refine ⟨rfl, rfl, rfl, ?_, ?_, ?_, rfl⟩
  · simp [Ring.Dump, Slice.make, Slice.cap]
  · intro grow p hp
    exact ⟨_, Ring.Write_after_Dump grow r p hp, rfl, rfl⟩
  · intro h
    simpa [Ring.Dump] using h

/-- Claim C9.  While `Output` is false, `State.Write` returns what `Ring.Write` returns
on the ring of the state, replaces the ring by the ring `Ring.Write` leaves, and changes
neither the handle nor the world; it panics when `Ring.Write` does.  While `Output` is
true, it returns what `File.Write` returns on the handle, the world is the one
`File.Write` leaves and the state, its ring included, is unchanged; on an open handle
with room in the file, that is the chunk appended to the file. -/
theorem Write_one_sink (grow : Nat → Nat → Nat) (s : State) (w : World) (p : List Byte) :
    (s.Output = false →
      (∀ r1 res, s.Ring.Write grow p = Outcome.ok (r1, res) →
        s.Write grow w p = Outcome.ok ({ s with Ring := r1 }, w, res)) ∧
      (s.Ring.Write grow p = Outcome.panicked → s.Write grow w p = Outcome.panicked)) ∧
    (s.Output = true →
      s.Write grow w p = Outcome.ok (s, (s.file.Write w p).1, (s.file.Write w p).2) ∧
      (∀ c, s.file = File.opened → w.content = some c →
        (∀ q, w.quota = some q → c.length + p.length ≤ q) →
        s.Write grow w p
          = Outcome.ok (s, { w with content := some (c ++ p) }, ⟨p.length, none⟩))) := by
  constructor
  · intro hmode
    constructor
    · intro r1 res h
      simp [State.Write, hmode, h]
    · intro h
      simp [State.Write, hmode, h]
  · intro hmode
    constructor
    · simp [State.Write, hmode]
    · intro c hf hc hq
      simp [State.Write, hmode, hf, File.Write_opened_fits w c p hc hq]

/-- Claim C10.  For a state with `Output = true`, `Stop` sets `Output` to false, leaves
the handle not open (an open handle is closed) and changes neither the ring nor the
file; a `Write` that follows at once does to the ring what `Ring.Write` does, returns
its result, and leaves the file as it was when `Stop` was called. -/
theorem Stop_then_Write (grow : Nat → Nat → Nat) (s : State) (w : World) (p : List Byte)
    (_hmode : s.Output = true) :
    (s.Stop w).1.Output = false ∧
      (s.Stop w).1.file ≠ File.opened ∧
      (s.file = File.opened → (s.Stop w).1.file = File.closed) ∧
      (s.Stop w).1.Ring = s.Ring ∧
      (s.Stop w).2 = w ∧
      (∀ r1 res, s.Ring.Write grow p = Outcome.ok (r1, res) →
        (s.Stop w).1.Write grow (s.Stop w).2 p
          = Outcome.ok ({ (s.Stop w).1 with Ring := r1 }, w, res)) ∧
      (s.Ring.Write grow p = Outcome.panicked →
        (s.Stop w).1.Write grow (s.Stop w).2 p = Outcome.panicked) := by
  refine ⟨rfl, ?_, ?_, rfl, rfl, ?_, ?_⟩
  · cases hf : s.file <;> simp [State.Stop, File.Close, hf]
  · intro hf
    simp [State.Stop, File.Close, hf]
  · intro r1 res h
    simp [State.Write, State.Stop, h]
  · intro h
    simp [State.Write, State.Stop, h]

/-- The statement of C10 at a concrete input. -/
theorem Stop_then_Write_witness :
    recordingState.Output = true ∧
      (recordingState.Stop plainWorld).1.Output = false ∧
      (recordingState.Stop plainWorld).1.file = File.closed ∧
      (recordingState.Stop plainWorld).2 = plainWorld ∧
      (recordingState.Stop plainWorld).1.Write growDouble (recordingState.Stop plainWorld).2
          [1, 2]
        = Outcome.ok
            ({ size := 10, file := File.closed, Path := "out.raw", Output := false,
               Ring := { size := 10, buffer := ⟨[1, 2], 8⟩ } }, plainWorld, ⟨2, none⟩) :=
  have h := Stop_then_Write growDouble recordingState plainWorld [1, 2] (by decide)
  ⟨by decide, h.1, h.2.2.1 (by decide), h.2.2.2.2.1,
    h.2.2.2.2.2.1 { size := 10, buffer := ⟨[1, 2], 8⟩ } ⟨2, none⟩ (by decide)⟩

/-- Claim C11.  In every state that calls on `NewState(C, path)` reach, `Output = true`
implies that the ring is empty.  And when a `Start` is followed by calls `mid` without
a `Start`, the ring then holds only bytes written after the first `Stop` of `mid`: it
is the ring that `Start` emptied, taken through the `Write` calls that follow that
`Stop`, and its contents are a suffix of the chunks accepted among them.  So these
are the only bytes a later `Start` flushes. -/
theorem Ring_flushed_once (grow : Nat → Nat → Nat) (C : Int) (path : String) (w0 : World) :
    (∀ calls s w, State.exec grow C path w0 calls = Outcome.ok (s, w) →
        s.Output = true → s.Ring.buffer.data = []) ∧
      (∀ pre mid s1 w1 s2 w2, Call.Start ∉ mid →
        State.exec grow C path w0 pre = Outcome.ok (s1, w1) →
        State.exec grow C path w0 (pre ++ Call.Start :: mid) = Outcome.ok (s2, w2) →
        ∃ log, Ring.runLog grow s1.Ring.Dump.1 [] (ringWrites (afterStop mid))
            = Outcome.ok (s2.Ring, log) ∧
          s2.Ring.buffer.data <:+ log) := by
  constructor
  · intro calls s w h hout
    exact (State.exec_keeps grow C path w0 calls s w h).2 hout
  · intro pre mid s1 w1 s2 w2 hmid hpre hall
    unfold State.exec at hpre hall
    cases hnew : NewState C path with
    | panicked => simp [hnew] at hpre
    | fatal => simp [hnew] at hpre
    | ok s0 =>
      simp only [hnew] at hpre hall
      rw [State.run_append, hpre] at hall
      simp only [State.run, State.step] at hall
      cases hstart : s1.Start w1 with
      | panicked => simp [hstart] at hall
      | fatal => simp [hstart] at hall
      | ok v =>
        obtain ⟨s1a, w1a⟩ := v
        simp only [hstart] at hall
        obtain ⟨_, hs, _⟩ := State.Start_ok s1 s1a w1 w1a hstart
        subst hs
        obtain ⟨log, hlog⟩ := State.run_recording_ring grow mid _ s2 w1a w2 [] hmid rfl hall
        refine ⟨log, hlog, ?_⟩
        exact (Ring.runLog_keeps grow _ _ s2.Ring [] log hlog
          (by simp [Ring.Dump, Slice.make, Slice.len])
          (by simp [Ring.Dump, Slice.make])).2.2

/-- The statement of C11 at a concrete input. -/
theorem Ring_flushed_once_witness :
    State.exec growDouble 10 "out.raw" plainWorld [Call.Write [88, 89, 90]]
        = Outcome.ok (xyzState, plainWorld) ∧
      State.exec growDouble 10 "out.raw" plainWorld
          ([Call.Write [88, 89, 90]] ++
            Call.Start :: [Call.Write [1, 2], Call.Stop, Call.Write [3], Call.Write [4, 5]])
        = Outcome.ok
            ({ size := 10, file := File.closed, Path := "out.raw", Output := false,
               Ring := { size := 10, buffer := ⟨[3, 4, 5], 7⟩ } },
             { plainWorld with content := some [88, 89, 90, 1, 2] }) ∧
      (recordingState.Output = true → recordingState.Ring.buffer.data = []) ∧
      ∃ log, Ring.runLog growDouble xyzState.Ring.Dump.1 []
            (ringWrites
              (afterStop [Call.Write [1, 2], Call.Stop, Call.Write [3], Call.Write [4, 5]]))
          = Outcome.ok (({ size := 10, buffer := ⟨[3, 4, 5], 7⟩ } : Ring), log) ∧
        ([3, 4, 5] : List Byte) <:+ log :=
  ⟨by decide, by decide,
    (Ring_flushed_once growDouble 10 "out.raw" plainWorld).1
      [Call.Write [88, 89, 90], Call.Start] recordingState
      { plainWorld with content := some [88, 89, 90] } (by decide),
    (Ring_flushed_once growDouble 10 "out.raw" plainWorld).2
      [Call.Write [88, 89, 90]]
      [Call.Write [1, 2], Call.Stop, Call.Write [3], Call.Write [4, 5]]
      xyzState plainWorld
      { size := 10, file := File.closed, Path := "out.raw", Output := false,
        Ring := { size := 10, buffer := ⟨[3, 4, 5], 7⟩ } }
      { plainWorld with content := some [88, 89, 90, 1, 2] }
      (by decide) (by decide) (by decide)⟩

/-- Claim C12.  `NewState` gives a state with `Output = false` and no handle, and in
every state that `Start`, `Stop` and `Write` calls on it reach, repeated ones
included, the handle `s.file` is open if and only if `Output = true`. -/
theorem Handle_open_iff_Output (grow : Nat → Nat → Nat) (C : Int) (path : String)
    (w0 : World) :
    (∀ s0, NewState C path = Outcome.ok s0 → s0.Output = false ∧ s0.file = File.nil) ∧
      (∀ calls s w, State.exec grow C path w0 calls = Outcome.ok (s, w) →
        (s.file = File.opened ↔ s.Output = true)) := by
  constructor
  · intro s0 h
    obtain ⟨_, hs0⟩ := NewState_ok C path s0 h
    subst hs0
    exact ⟨rfl, rfl⟩
  · intro calls s w h
    exact (State.exec_keeps grow C path w0 calls s w h).1

/-- The statement of C12 at a concrete input: `Start` twice, `Stop` twice, `Start`. -/
theorem Handle_open_iff_Output_witness :
    State.exec growDouble 10 "out.raw" plainWorld
        [Call.Start, Call.Start, Call.Write [1], Call.Stop, Call.Stop, Call.Start]
        = Outcome.ok (recordingState, { plainWorld with content := some [] }) ∧
      (recordingState.file = File.opened ↔ recordingState.Output = true) ∧
      State.exec growDouble 10 "out.raw" plainWorld
        [Call.Start, Call.Start, Call.Write [1], Call.Stop, Call.Stop]
        = Outcome.ok
            ({ size := 10, file := File.closed, Path := "out.raw", Output := false,
               Ring := { size := 10, buffer := ⟨[], 10⟩ } },
             { plainWorld with content := some [1] }) :=
  ⟨by decide,
    (Handle_open_iff_Output growDouble 10 "out.raw" plainWorld).2
      [Call.Start, Call.Start, Call.Write [1], Call.Stop, Call.Stop, Call.Start]
      recordingState { plainWorld with content := some [] } (by decide),
    by decide⟩

/-- Claim C13 as stated fails.  Calls on `NewState(10, "out.raw")` reach a state with
`Output = true` whose file holds five bytes.  When `os.Create` fails at the `Start`
that follows, `Start` ends the process (`log.Fatal`): it does not return, the file is
not truncated, and no `Write` follows. -/
theorem Start_while_recording_may_end_process :
    State.exec growDouble 10 "out.raw" plainWorld
        [Call.Write [88, 89, 90], Call.Start, Call.Write [1, 2]]
        = Outcome.ok (recordingState, { plainWorld with content := some [88, 89, 90, 1, 2] }) ∧
      recordingState.Output = true ∧
      recordingState.Start
          { plainWorld with content := some [88, 89, 90, 1, 2], createFails := true }
        = Outcome.fatal ∧
      (osCreate
          { plainWorld with content := some [88, 89, 90, 1, 2], createFails := true }).1.content
        = some [88, 89, 90, 1, 2] := by
  decide

/-- Claim C13, amended.  Take a state `s` with `Output = true` that calls on
`NewState(C, path)` reach, and the world `w1` in which `Start` is called next, whatever
its file holds.  When `os.Create` succeeds there, `Start` returns, the file is empty
afterwards, `Output` is true, the handle is open and the ring is empty; a `Write`
that follows lays the bytes the sink takes down from offset zero, so the file holds
exactly the chunk when the sink takes all of it. -/
theorem Start_while_recording_resets (grow : Nat → Nat → Nat) (C : Int) (path : String)
    (w0 : World) (calls : List Call) (s : State) (w w1 : World)
    (hreach : State.exec grow C path w0 calls = Outcome.ok (s, w))
    (hmode : s.Output = true) (hcreate : w1.createFails = false) :
    ∃ s2 w2, s.Start w1 = Outcome.ok (s2, w2) ∧
      w2.content = some [] ∧ s2.Output = true ∧ s2.file = File.opened ∧
      s2.Ring.buffer.data = [] ∧
      ∀ p, ∃ w3 res, s2.Write grow w2 p = Outcome.ok (s2, w3, res) ∧
        w3.content = some (p.take res.n) ∧
        (res.err = none → w3.content = some p) := by
  have hdata := (State.exec_keeps grow C path w0 calls s w hreach).2 hmode
  have hcr : osCreate w1 = ({ w1 with content := some [] }, some File.opened) := by
    simp [osCreate, hcreate]
  have hflush := File.Write_opened_empty { w1 with content := some [] } [] rfl
  refine ⟨{ s with file := File.opened, Ring := s.Ring.Dump.1, Output := true },
    { w1 with content := some [] }, ?_, rfl, rfl, rfl, ?_, ?_⟩
  · simp only [State.Start, hcr, Ring.Dump, hdata, hflush]
  · simp [Ring.Dump, Slice.make]
  · intro p
    refine ⟨(File.opened.Write { w1 with content := some [] } p).1,
      (File.opened.Write { w1 with content := some [] } p).2, ?_, ?_, ?_⟩
    · simp [State.Write]
    · simpa using File.Write_opened_content { w1 with content := some [] } [] p rfl
    · intro herr
      rw [File.Write_opened_err_none { w1 with content := some [] } [] p rfl herr]
      simp

/-- The statement of C13, amended, at a concrete input. -/
theorem Start_while_recording_resets_witness :
    State.exec growDouble 10 "out.raw" plainWorld
        [Call.Write [88, 89, 90], Call.Start, Call.Write [1, 2]]
        = Outcome.ok (recordingState, { plainWorld with content := some [88, 89, 90, 1, 2] }) ∧
      recordingState.Output = true ∧
      ({ plainWorld with content := some [88, 89, 90, 1, 2] } : World).createFails = false ∧
      recordingState.Start { plainWorld with content := some [88, 89, 90, 1, 2] }
        = Outcome.ok (recordingState, { plainWorld with content := some [] }) ∧
      recordingState.Write growDouble { plainWorld with content := some [] } [3, 4]
        = Outcome.ok (recordingState, { plainWorld with content := some [3, 4] }, ⟨2, none⟩) ∧
      ∃ s2 w2,
        recordingState.Start { plainWorld with content := some [88, 89, 90, 1, 2] }
          = Outcome.ok (s2, w2) ∧
        w2.content = some [] ∧ s2.Output = true ∧ s2.file = File.opened ∧
        s2.Ring.buffer.data = [] ∧
        ∀ p, ∃ w3 res, s2.Write growDouble w2 p = Outcome.ok (s2, w3, res) ∧
          w3.content = some (p.take res.n) ∧
          (res.err = none → w3.content = some p) :=
  ⟨by decide, by decide, by decide, by decide, by decide,
    Start_while_recording_resets growDouble 10 "out.raw" plainWorld
      [Call.Write [88, 89, 90], Call.Start, Call.Write [1, 2]] recordingState
      { plainWorld with content := some [88, 89, 90, 1, 2] }
      { plainWorld with content := some [88, 89, 90, 1, 2] }
      (by decide) (by decide) (by decide)⟩

/-- Claim C14.  For a state with `Output = false` whose handle is nil or already closed,
`Stop` returns (`Close` on such a handle gives an error value and no panic, and
`Stop` drops it) and changes nothing: `Output` stays false, and the handle, the ring
and the file are as before. -/
theorem Stop_while_buffering_benign (s : State) (w : World) (hmode : s.Output = false)
    (hfile : s.file = File.nil ∨ s.file = File.closed) :
    s.Stop w = (s, w) ∧
      (s.Stop w).1.Output = false ∧
      (s.Stop w).1.Ring = s.Ring ∧
      (s.Stop w).1.file = s.file ∧
      (s.Stop w).2.content = w.content ∧
      (s.file.Close w).2 ≠ none := by
  obtain ⟨size, file, Path, Output, Ring⟩ := s
  simp only at hmode hfile
  subst hmode
  rcases hfile with h | h <;> subst h <;> simp [State.Stop, File.Close]

/-- The statement of C14 at a concrete input: a state that never had a file, and a state
whose file an earlier `Stop` closed. -/
theorem Stop_while_buffering_benign_witness :
    State.exec growDouble 10 "out.raw" plainWorld [Call.Write [88, 89, 90], Call.Stop]
        = Outcome.ok (xyzState, plainWorld) ∧
      State.exec growDouble 10 "out.raw" plainWorld [Call.Start, Call.Stop, Call.Stop]
        = Outcome.ok
            ({ recordingState with file := File.closed, Output := false },
             { plainWorld with content := some [] }) ∧
      xyzState.Stop plainWorld = (xyzState, plainWorld) ∧
      ({ recordingState with file := File.closed, Output := false } : State).Stop plainWorld
        = ({ recordingState with file := File.closed, Output := false }, plainWorld) :=
  ⟨by decide, by decide,
    (Stop_while_buffering_benign xyzState plainWorld (by decide) (Or.inl (by decide))).1,
    (Stop_while_buffering_benign { recordingState with file := File.closed, Output := false }
      plainWorld (by decide) (Or.inr (by decide))).1⟩

/-- Claim C15 as stated fails, at states and worlds that calls on
`NewState(10, "out.raw")` reach.  When `os.Create` fails, `Start` ends the process
(`log.Fatal`) and returns nothing.  When the new file takes two of the three drained
bytes, the write inside `Start` returns `(2, error)` and `Start` returns as it does
when the write succeeds, with the same state.  When closing the open file reports an
error, `Stop` returns as it does when closing succeeds, with the same state. -/
theorem Start_and_Stop_report_nothing :
    State.exec growDouble 10 "out.raw" lockedWorld [Call.Write [88, 89, 90]]
        = Outcome.ok (xyzState, lockedWorld) ∧
      xyzState.Start lockedWorld = Outcome.fatal ∧
      State.exec growDouble 10 "out.raw" tightWorld [Call.Write [88, 89, 90]]
        = Outcome.ok (xyzState, tightWorld) ∧
      (File.opened.Write (osCreate tightWorld).1 xyzState.Ring.Dump.2).2
        = ⟨2, some Error.noSpace⟩ ∧
      xyzState.Start tightWorld
        = Outcome.ok (recordingState, { tightWorld with content := some [88, 89] }) ∧
      xyzState.Start plainWorld
        = Outcome.ok (recordingState, { plainWorld with content := some [88, 89, 90] }) ∧
      State.exec growDouble 10 "out.raw" brokenCloseWorld [Call.Write [88, 89, 90], Call.Start]
        = Outcome.ok (recordingState, brokenCloseWorld) ∧
      (recordingState.file.Close brokenCloseWorld).2 = some Error.closeFailed ∧
      recordingState.Stop brokenCloseWorld
        = ({ recordingState with file := File.closed, Output := false }, brokenCloseWorld) ∧
      recordingState.Stop plainWorld
        = ({ recordingState with file := File.closed, Output := false }, plainWorld) := by
  decide

/-- Claim C15, amended.  The error values that arise inside `Ring.Write` and
`State.Write` are returned to the caller: `Ring.Write` returns `(0, error)` for a chunk
longer than `cap(r.buffer)`; `State.Write` returns the result of `Ring.Write` while
`Output` is false and the byte count and error of the sink while it is true; neither
ends the process through `log.Fatal`.  `Start` and `Stop` return no value: `Start`
ends the process inside the core exactly when `os.Create` fails, and `Stop` on a
handle that is nil or closed drops the error of `Close` and returns. -/
theorem Write_errors_returned (grow : Nat → Nat → Nat) :
    (∀ (r : Ring) (p : List Byte), r.buffer.cap < p.length →
        r.Write grow p = Outcome.ok (r, ⟨0, some Error.tooLarge⟩)) ∧
      (∀ (r : Ring) (p : List Byte), r.Write grow p ≠ Outcome.fatal) ∧
      (∀ (s : State) (w : World) (p : List Byte) (r1 : Ring) (res : WriteResult),
        s.Output = false → s.Ring.Write grow p = Outcome.ok (r1, res) →
        s.Write grow w p = Outcome.ok ({ s with Ring := r1 }, w, res)) ∧
      (∀ (s : State) (w : World) (p : List Byte), s.Output = true →
        s.Write grow w p = Outcome.ok (s, (s.file.Write w p).1, (s.file.Write w p).2)) ∧
      (∀ (s : State) (w : World) (p : List Byte), s.Write grow w p ≠ Outcome.fatal) ∧
      (∀ (s : State) (w : World), w.createFails = true → s.Start w = Outcome.fatal) ∧
      (∀ (s : State) (w : World), w.createFails = false →
        ∃ s1 w1, s.Start w = Outcome.ok (s1, w1)) ∧
      (∀ (s : State) (w : World), s.file ≠ File.opened →
        (s.file.Close w).2 ≠ none ∧ s.Stop w = ({ s with Output := false }, w)) := by
  refine ⟨?_, Ring.Write_ne_fatal grow, ?_, ?_, ?_, ?_, ?_, ?_⟩
  · intro r p h
    unfold Ring.Write
    rw [if_neg (by omega), if_pos h]
  · intro s w p r1 res hmode h
    simp [State.Write, hmode, h]
  · intro s w p hmode
    simp [State.Write, hmode]
  · intro s w p
    unfold State.Write
    cases s.Output with
    | true => simp
    | false =>
      have := Ring.Write_ne_fatal grow s.Ring p
      cases hw : s.Ring.Write grow p with
      | ok v => simp
      | panicked => simp
      | fatal => exact absurd hw this
  · intro s w h
    simp [State.Start, osCreate, h]
  · intro s w h
    exact ⟨_, _, by simp only [State.Start, osCreate, h]; rfl⟩
  · intro s w h
    cases hf : s.file with
    | opened => exact absurd hf h
    | nil =>
      obtain ⟨size, file, Path, Output, Ring⟩ := s
      simp only at hf
      subst hf
      simp [State.Stop, File.Close]
    | closed =>
      obtain ⟨size, file, Path, Output, Ring⟩ := s
      simp only at hf
      subst hf
      simp [State.Stop, File.Close]

/-- Claim C17.  For `C ≥ 0`, on the ring `NewRing(C)` and on a ring reachable from it
that `Dump` has just emptied, `Write(p)` returns an error if and only if
`len(p) > C`; it then returns `(0, error)` and the ring is still empty; when
`len(p) ≤ C` it returns `(len(p), nil)` and the contents are exactly `p`. -/
theorem Empty_ring_threshold (grow : Nat → Nat → Nat) (C : Int) (p : List Byte)
    (hC : 0 ≤ C) :
    (∃ r0 r1 res, NewRing C = Outcome.ok r0 ∧ r0.buffer.data = [] ∧
        r0.Write grow p = Outcome.ok (r1, res) ∧
        (res.err ≠ none ↔ C < (p.length : Int)) ∧
        (C < (p.length : Int) →
          res = ⟨0, some Error.tooLarge⟩ ∧ r1 = r0 ∧ r1.buffer.data = []) ∧
        ((p.length : Int) ≤ C → res = ⟨p.length, none⟩ ∧ r1.buffer.data = p)) ∧
      (∀ r, Ring.Reachable grow C r →
        ∃ r1 res, r.Dump.1.Write grow p = Outcome.ok (r1, res) ∧
          (res.err ≠ none ↔ C < (p.length : Int)) ∧
          (C < (p.length : Int) →
            res = ⟨0, some Error.tooLarge⟩ ∧ r1 = r.Dump.1 ∧ r1.buffer.data = []) ∧
          ((p.length : Int) ≤ C → res = ⟨p.length, none⟩ ∧ r1.buffer.data = p)) := by
  obtain ⟨r1, res, hw, hiff, hbig, hfit⟩ := Ring.Write_threshold grow C.toNat p
  have e1 : C.toNat < p.length ↔ C < (p.length : Int) := by omega
  have e2 : p.length ≤ C.toNat ↔ (p.length : Int) ≤ C := by omega
  constructor
  · refine ⟨{ size := C.toNat, buffer := Slice.make C.toNat }, r1, res, ?_, rfl, hw,
      hiff.trans e1, fun h => hbig (e1.mpr h), fun h => hfit (e2.mpr h)⟩
    unfold NewRing
    rw [if_neg (by omega)]
  · intro r hr
    obtain ⟨_, hsz, _⟩ := Ring.Reachable_bound grow C r hr
    have hd : r.Dump.1 = { size := C.toNat, buffer := Slice.make C.toNat } := by
      simp [Ring.Dump, hsz]
    rw [hd]
    exact ⟨r1, res, hw, hiff.trans e1, fun h => hbig (e1.mpr h), fun h => hfit (e2.mpr h)⟩

/-- The statement of C17 at a concrete input: capacity 10, a chunk of 3 bytes and a
chunk of 11 bytes. -/
theorem Empty_ring_threshold_witness :
    (0 : Int) ≤ 10 ∧
      NewRing 10 = Outcome.ok ⟨10, ⟨[], 10⟩⟩ ∧
      Ring.Write growDouble ⟨10, ⟨[], 10⟩⟩ [1, 2, 3]
        = Outcome.ok (⟨10, ⟨[1, 2, 3], 7⟩⟩, ⟨3, none⟩) ∧
      Ring.Write growDouble ⟨10, ⟨[], 10⟩⟩ (List.replicate 11 0)
        = Outcome.ok (⟨10, ⟨[], 10⟩⟩, ⟨0, some Error.tooLarge⟩) ∧
      ∃ r0 r1 res, NewRing 10 = Outcome.ok r0 ∧ r0.buffer.data = [] ∧
        r0.Write growDouble (List.replicate 11 0) = Outcome.ok (r1, res) ∧
        (res.err ≠ none ↔ (10 : Int) < ((List.replicate 11 (0 : Byte)).length : Int)) ∧
        ((10 : Int) < ((List.replicate 11 (0 : Byte)).length : Int) →
          res = ⟨0, some Error.tooLarge⟩ ∧ r1 = r0 ∧ r1.buffer.data = []) ∧
        (((List.replicate 11 (0 : Byte)).length : Int) ≤ 10 →
          res = ⟨(List.replicate 11 (0 : Byte)).length, none⟩ ∧
            r1.buffer.data = List.replicate 11 0) :=
  ⟨by decide, by decide, by decide, by decide,
    (Empty_ring_threshold growDouble 10 (List.replicate 11 0) (by decide)).1⟩

end Lookback
